import Mathlib

/-!
Shallow embedding of the claudpit session discovery and status-inference
engine (`src/hooks/useSessions.ts` and `src/utils/sessionStatus.ts`).

Strings are modelled by Lean `String` values; where the source performs
character-level string surgery we work on the underlying `List Char`
(`String.data`) with wrappers back into `String`.  Timestamps
(`Date.now()`, `stat.mtimeMs`, `stat.birthtimeMs`) are modelled as `Int`
milliseconds; every function that reads the clock receives the current
instant `now` as an argument.  Filesystem and OS interactions are
modelled by explicit oracle functions collected in the `FS` structure;
a `try`/`catch` around an I/O call becomes an `Option` result.
-/

namespace Claudpit

/-- JS `s.endsWith(t)` on the character-list model. -/
def endsWithS (s t : String) : Bool :=
  t.data.isSuffixOf s.data

/-- Core of `replaceFirstS` on character lists: replace the first
occurrence of `pat` in the list by `repl`, as JS `String.replace` with a
string pattern does. -/
def replaceFirstL (pat repl : List Char) : List Char → List Char
  | [] => []
  | c :: rest =>
    if pat.isPrefixOf (c :: rest) then repl ++ (c :: rest).drop pat.length
    else c :: replaceFirstL pat repl rest

/-- JS `s.replace(pat, repl)` with a string pattern: replaces only the
first occurrence. -/
def replaceFirstS (s pat repl : String) : String :=
  ⟨replaceFirstL pat.data repl.data s.data⟩

/-- The four session statuses of `src/types.ts`. -/
inductive SessionStatus where
  | running
  | waiting
  | idle
  | inactive
deriving DecidableEq, Repr

/-- One line of a session `.jsonl` log, as seen by the engine after
`JSON.parse`: either the line is not valid JSON (`malformed`), or it is a
record carrying the fields the engine reads — the `type` discriminator
(`none` models a missing/undefined field), the list of `type` tags of the
items under `message.content` (`none` models a missing or non-array
value), and the `gitBranch` / `cwd` string fields of the record. -/
inductive JsonLine where
  | malformed
  | record (type : Option String) (contentTypes : Option (List String))
      (gitBranch : Option String) (cwd : Option String)
deriving DecidableEq, Repr

/-- JS truthiness of an optional string: `undefined` and `""` are falsy. -/
def strTruthy : Option String → Bool
  | none => false
  | some s => s ≠ ""

/-- `META_TYPES` of `src/utils/sessionStatus.ts`: record types skipped as
pure metadata. -/
def META_TYPES : List String := ["file-history-snapshot", "system"]

/-- The per-line decision of the loop body of `resolveActiveStatus`:
`none` when the line is skipped (unparseable, missing/falsy `type`, or a
metadata type), otherwise the status the record decides. -/
def classifyRecord : JsonLine → Option SessionStatus
  | .malformed => none
  | .record type contentTypes _ _ =>
    match type with
    | none => none
    | some t =>
      if t = "" ∨ t ∈ META_TYPES then none
      else if t = "progress" ∨ t = "user" ∨ t = "queue-operation" then
        some .running
      else if t ≠ "assistant" then some .running
      else
        match contentTypes with
        | none => some .running
        | some items =>
          if items.contains "tool_use" then some .waiting
          else if items.contains "text" then some .idle
          else some .running

/-- Scan a list of lines (already reversed: most recent first) for the
first line that decides a status; `running` when none does. -/
def firstDecision : List JsonLine → SessionStatus
  | [] => .running
  | l :: rest =>
    match classifyRecord l with
    | some s => s
    | none => firstDecision rest

/-- `resolveActiveStatus` of `src/utils/sessionStatus.ts`, on the parsed
trailing lines of the log in file order: walk from the last line
backward; the first substantive record decides, and an empty or fully
skipped log yields `running`. -/
def resolveActiveStatus (lines : List JsonLine) : SessionStatus :=
  firstDecision lines.reverse

/-- `RECENT_THRESHOLD` (ms). -/
def RECENT_THRESHOLD : Int := 3000

/-- `SUBAGENT_THRESHOLD` (ms). -/
def SUBAGENT_THRESHOLD : Int := 60000

/-- `hasActiveSubagent` of `src/utils/sessionStatus.ts`: `subMtimes` are
the modification times of the `.jsonl` logs in the session's `subagents`
directory (an unreadable or missing directory is the empty list). -/
def hasActiveSubagent (now : Int) (subMtimes : List Int) : Bool :=
  subMtimes.any fun m => now - m < SUBAGENT_THRESHOLD

/-- `determineStatus` of `src/utils/sessionStatus.ts`.  `lines` are the
parsed trailing records of the session log, `mtimeMs` its modification
time, `subMtimes` the subagent log modification times. -/
def determineStatus (sessionId : String) (activeSessionIds : List String)
    (lines : List JsonLine) (mtimeMs now : Int) (subMtimes : List Int) :
    SessionStatus :=
  if sessionId ∉ activeSessionIds then .inactive
  else
    let status := resolveActiveStatus lines
    if status = .idle ∧ now - mtimeMs < RECENT_THRESHOLD then .running
    else if status = .waiting then
      if now - mtimeMs < RECENT_THRESHOLD then .running
      else if hasActiveSubagent now subMtimes then .running
      else status
    else status

/-- `SessionRow` of `src/types.ts`; `lastActive` is the `Date` as epoch
milliseconds. -/
structure SessionRow where
  sessionId : String
  projectPath : String
  projectName : String
  gitBranch : String
  status : SessionStatus
  lastActive : Int
  messageCount : Nat
deriving DecidableEq, Repr

/-- `STATUS_PRIORITY` of `src/hooks/useSessions.ts`. -/
def STATUS_PRIORITY : SessionStatus → Nat
  | .running => 0
  | .waiting => 1
  | .idle => 2
  | .inactive => 3

/-- The boolean order implemented by the comparator in `sortRows`:
ascending status priority, then descending `lastActive`. -/
def rowLE (a b : SessionRow) : Bool :=
  decide (STATUS_PRIORITY a.status < STATUS_PRIORITY b.status ∨
    (STATUS_PRIORITY a.status = STATUS_PRIORITY b.status ∧
      b.lastActive ≤ a.lastActive))

/-- `sortRows` of `src/hooks/useSessions.ts`, modelled as the stable
sort under `rowLE` (JS `Array.prototype.sort` is stable and the
comparator is a total preorder). -/
def sortRows (rows : List SessionRow) : List SessionRow :=
  rows.mergeSort rowLE

/-- `SessionIndexEntry` of `src/types.ts`. -/
structure SessionIndexEntry where
  sessionId : String
  gitBranch : String
  projectPath : String
  modified : String
  messageCount : Nat
  created : String
  isSidechain : Bool
deriving DecidableEq, Repr

/-- `IndexData` of `src/hooks/useSessions.ts` (a successfully loaded
`sessions-index.json`): the raw entry list in file order. -/
structure IndexData where
  entries : List SessionIndexEntry
deriving DecidableEq, Repr

/-- `indexData.entries.get(sessionId)`: the map is built by inserting
entries in order, so a later entry with the same id overwrites an
earlier one. -/
def indexLookup (d : IndexData) (sessionId : String) :
    Option SessionIndexEntry :=
  d.entries.reverse.find? fun e => e.sessionId = sessionId

/-- `indexData.projectPath`, computed in `loadIndex` as
`index.entries[0]?.projectPath`. -/
def indexProjectPath (d : IndexData) : Option String :=
  d.entries.head?.map (·.projectPath)

/-- `JsonlMetadata` of `src/hooks/useSessions.ts`. -/
structure JsonlMetadata where
  messageCount : Nat
  gitBranch : Option String
  cwd : Option String
deriving DecidableEq, Repr

/-- Loop body of `parseJsonlMetadata`: the `try` block wraps the whole
loop, so the first unparseable line aborts, keeping what was
accumulated so far. -/
def parseJsonlMetaGo : JsonlMetadata → List JsonLine → JsonlMetadata
  | acc, [] => acc
  | acc, .malformed :: _ => acc
  | acc, .record type _ gitBranch cwd :: rest =>
    let acc := if type = some "user" ∨ type = some "assistant" then
        { acc with messageCount := acc.messageCount + 1 }
      else acc
    let acc := if type = some "user" then
        let acc := if strTruthy gitBranch then
            { acc with gitBranch := gitBranch }
          else acc
        if ¬ strTruthy acc.cwd ∧ strTruthy cwd then { acc with cwd := cwd }
        else acc
      else acc
    parseJsonlMetaGo acc rest

/-- `parseJsonlMetadata` of `src/hooks/useSessions.ts`, on the parsed
lines of the log (an unreadable file is the empty list). -/
def parseJsonlMetadata (lines : List JsonLine) : JsonlMetadata :=
  parseJsonlMetaGo ⟨0, none, none⟩ lines

/-- Character-list core of `deriveProjectPath`: first a leading dash is
replaced by a slash, then every remaining dash becomes a slash. -/
def deriveProjectPathL (dirName : List Char) : List Char :=
  let s := match dirName with
    | '-' :: rest => '/' :: rest
    | l => l
  s.map fun c => if c = '-' then '/' else c

/-- `deriveProjectPath` of `src/hooks/useSessions.ts`: decode a project
directory name back into an absolute path. -/
def deriveProjectPath (dirName : String) : String :=
  ⟨deriveProjectPathL dirName.data⟩

/-- Character-list core of the directory-name encoding used in
`matchSessionByBirthTime`: `'-' + cwd.slice(1).replaceAll('/', '-')`. -/
def encodeProjectDirL (cwd : List Char) : List Char :=
  '-' :: (cwd.drop 1).map fun c => if c = '/' then '-' else c

/-- The project-directory name derived from a working directory in
`matchSessionByBirthTime` (`src/utils/sessionStatus.ts`). -/
def encodeProjectDir (cwd : String) : String :=
  ⟨encodeProjectDirL cwd.data⟩

/-- `STALE_THRESHOLD` (ms): 24 hours. -/
def STALE_THRESHOLD : Int := 24 * 60 * 60 * 1000

/-- `CachedSession` of `src/hooks/useSessions.ts`. -/
structure CachedSession where
  filePath : String
  sessionId : String
  mtimeMs : Int
  row : SessionRow
deriving DecidableEq, Repr

/-- The filesystem and OS oracles consumed by a scan.  Directory and
index lookups are keyed by project directory name; per-file lookups are
keyed by the file path built in the scan.  An `Option` result models
the `try`/`catch` around the corresponding I/O call. -/
structure FS where
  /-- `readdirSync(CLAUDE_DIR)`. -/
  rootDirs : Option (List String)
  /-- `loadIndex(dirPath)`: `none` is a missing or unparseable index. -/
  indexOf : String → Option IndexData
  /-- `readdirSync(dirPath)` for a project directory. -/
  dirFiles : String → Option (List String)
  /-- `statSync(filePath).mtimeMs`. -/
  statOf : String → Option Int
  /-- The parsed lines of the log at a file path. -/
  logOf : String → List JsonLine
  /-- Modification times of the `.jsonl` logs in the session's
  `subagents` directory. -/
  subagentsOf : String → List Int
  /-- `resolveProjectName(projectPath)`: manifest probing with its
  last-path-segment fallback, an I/O-driven lookup. -/
  projectNameOf : String → String
  /-- `resolveGitBranch(projectPath)`: `none` when `git` fails. -/
  gitBranchOf : String → Option String

/-- `join(dirPath, file)` relative to the root. -/
def filePathOf (dir file : String) : String := dir ++ "/" ++ file

/-- The row-building tail of the per-file body of the `fullScan` loop
in `src/hooks/useSessions.ts`: the index / log-metadata preference
chains for project path, branch and message count, the project-name and
status resolution, and the assembled cache entry. -/
def buildSession (fs : FS) (activeIds : List String) (now : Int)
    (dir : String) (indexData : Option IndexData) (file : String)
    (mtimeMs : Int) : CachedSession :=
  let sessionId := replaceFirstS file ".jsonl" ""
  let filePath := filePathOf dir file
  let indexEntry := indexData.bind fun d => indexLookup d sessionId
  let jsonlMeta : Option JsonlMetadata := match indexEntry with
    | some _ => none
    | none => some (parseJsonlMetadata (fs.logOf filePath))
  let projectPath := match indexEntry with
    | some e => e.projectPath
    | none =>
      match jsonlMeta.bind (·.cwd) with
      | some c => c
      | none =>
        match indexData.bind indexProjectPath with
        | some p => p
        | none => deriveProjectPath dir
  let projectName := fs.projectNameOf projectPath
  let status := determineStatus sessionId activeIds (fs.logOf filePath)
    mtimeMs now (fs.subagentsOf filePath)
  let gb : Option String := match indexEntry with
    | some e => some e.gitBranch
    | none => jsonlMeta.bind (·.gitBranch)
  let gitBranch : String :=
    if ¬ strTruthy gb ∨ gb = some "HEAD" then
      match fs.gitBranchOf projectPath with
      | some b => b
      | none =>
        match gb with
        | some s => s
        | none => "N/A"
    else gb.getD ""
  let messageCount := match indexEntry with
    | some e => e.messageCount
    | none => (jsonlMeta.map (·.messageCount)).getD 0
  { filePath := filePath
    sessionId := sessionId
    mtimeMs := mtimeMs
    row := { sessionId := sessionId
             projectPath := projectPath
             projectName := projectName
             gitBranch := gitBranch
             status := status
             lastActive := mtimeMs
             messageCount := messageCount } }

/-- The per-file body of the `fullScan` loop in
`src/hooks/useSessions.ts`: `none` when the file is skipped (stat
failure or the staleness exclusion), otherwise the built cache
entry. -/
def scanFile (fs : FS) (activeIds : List String) (now : Int)
    (dir : String) (indexData : Option IndexData) (file : String) :
    Option CachedSession :=
  match fs.statOf (filePathOf dir file) with
  | none => none
  | some mtimeMs =>
    if ¬ (replaceFirstS file ".jsonl" "" ∈ activeIds) ∧
        now - mtimeMs > STALE_THRESHOLD then none
    else some (buildSession fs activeIds now dir indexData file mtimeMs)

/-- The per-directory body of the `fullScan` loop: load the index,
enumerate `.jsonl` files (a readdir failure skips the directory), and
scan each file. -/
def scanDir (fs : FS) (activeIds : List String) (now : Int)
    (dir : String) : List CachedSession :=
  let indexData := fs.indexOf dir
  match fs.dirFiles dir with
  | none => []
  | some files =>
    (files.filter fun f => endsWithS f ".jsonl").filterMap
      (scanFile fs activeIds now dir indexData)

/-- `fullScan` of `src/hooks/useSessions.ts`: returns the new cached
entry set and the sorted row list.  `activeIds` is the freshly computed
ActiveProcessSet, `now` the scan instant. -/
def fullScan (fs : FS) (activeIds : List String) (now : Int) :
    List CachedSession × List SessionRow :=
  match fs.rootDirs with
  | none => ([], [])
  | some dirs =>
    let sessions := dirs.flatMap (scanDir fs activeIds now)
    (sessions, sortRows (sessions.map (·.row)))

/-- The per-entry body of the `quickScan` loop: re-stat the file; on a
changed modification time recompute status and `lastActive` only; a
stat failure or an unchanged time leaves the entry untouched. -/
def quickUpdate (fs : FS) (activeIds : List String) (now : Int)
    (c : CachedSession) : CachedSession :=
  match fs.statOf c.filePath with
  | none => c
  | some m =>
    if m ≠ c.mtimeMs then
      { c with
        mtimeMs := m
        row := { c.row with
                 lastActive := m
                 status := determineStatus c.sessionId activeIds
                   (fs.logOf c.filePath) m now (fs.subagentsOf c.filePath) } }
    else c

/-- `quickScan` of `src/hooks/useSessions.ts`: update every cached
entry in place and return the updated cache plus the sorted rows.
`activeIds` is the ActiveProcessSet captured at the last full scan. -/
def quickScan (fs : FS) (activeIds : List String) (now : Int)
    (cache : List CachedSession) : List CachedSession × List SessionRow :=
  let cache' := cache.map (quickUpdate fs activeIds now)
  (cache', sortRows (cache'.map (·.row)))

/-- `diff < bestDiff` with `bestDiff = none` standing for `Infinity`. -/
def beatsBest (diff : Int) : Option Int → Bool
  | none => true
  | some d => diff < d

/-- Loop of `matchSessionByBirthTime` over the directory's files, given
as (file name, `birthtimeMs`) pairs, threading the `bestId` / `bestDiff`
accumulators (`bestDiff = none` models the initial `Infinity`). -/
def matchGo (processStartMs : Int) :
    List (String × Int) → Option String → Option Int → Option String
  | [], bestId, _ => bestId
  | (f, birth) :: rest, bestId, bestDiff =>
    if ¬ endsWithS f ".jsonl" then matchGo processStartMs rest bestId bestDiff
    else
      let diff := birth - processStartMs
      if diff ≥ -5000 ∧ diff ≤ 300000 ∧ beatsBest diff bestDiff then
        matchGo processStartMs rest (some (replaceFirstS f ".jsonl" ""))
          (some diff)
      else matchGo processStartMs rest bestId bestDiff

/-- `matchSessionByBirthTime` of `src/utils/sessionStatus.ts`:
`readdirF` lists a project directory's entries with their creation
times (`none` models the readdir failure caught by the `try`). -/
def matchSessionByBirthTime
    (readdirF : String → Option (List (String × Int)))
    (cwd : String) (processStartMs : Int) : Option String :=
  let dirName := encodeProjectDir cwd
  match readdirF dirName with
  | none => none
  | some files => matchGo processStartMs files none none

/-! ## Supporting lemmas -/

/-- Spec-side description of a line skipped by the backward scan: an
unparseable line, a record with a missing or empty `type`, or a pure
metadata record type. -/
def metadataOnly : JsonLine → Bool
  | .malformed => true
  | .record none _ _ _ => true
  | .record (some t) _ _ _ => decide (t = "" ∨ t ∈ META_TYPES)

/-- Spec-side decision table for the first substantive record, as the
spec words it. -/
def specBaseStatus (t : String) (contentTypes : Option (List String)) :
    SessionStatus :=
  if t = "user" ∨ t = "progress" ∨ t = "queue-operation" then .running
  else if t = "assistant" then
    match contentTypes with
    | some items =>
      if items.contains "tool_use" then .waiting
      else if items.contains "text" then .idle
      else .running
    | none => .running
  else .running

lemma classifyRecord_substantive (t : String)
    (contentTypes : Option (List String)) (gb cw : Option String)
    (ht : ¬ (t = "" ∨ t ∈ META_TYPES)) :
    classifyRecord (.record (some t) contentTypes gb cw) =
      some (specBaseStatus t contentTypes) := by
  simp only [classifyRecord, specBaseStatus, if_neg ht]
  by_cases h1 : t = "progress" ∨ t = "user" ∨ t = "queue-operation"
  · have h1' : t = "user" ∨ t = "progress" ∨ t = "queue-operation" := by
      tauto
    rw [if_pos h1, if_pos h1']
  · have h1' : ¬ (t = "user" ∨ t = "progress" ∨ t = "queue-operation") := by
      tauto
    rw [if_neg h1, if_neg h1']
    by_cases h2 : t = "assistant"
    · rw [if_pos h2, if_neg (not_not_intro h2)]
      cases contentTypes with
      | none => rfl
      | some items => simp [apply_ite Option.some]
    · have h2' : t ≠ "assistant" := h2
      rw [if_neg h2, if_pos h2']

lemma specBaseStatus_ne_inactive (t : String)
    (contentTypes : Option (List String)) :
    specBaseStatus t contentTypes ≠ .inactive := by
  unfold specBaseStatus
  repeat' split
  all_goals simp

lemma classifyRecord_eq_none_iff (l : JsonLine) :
    classifyRecord l = none ↔ metadataOnly l = true := by
  cases l with
  | malformed => simp [classifyRecord, metadataOnly]
  | record type contentTypes gb cw =>
    cases type with
    | none => simp [classifyRecord, metadataOnly]
    | some t =>
      by_cases h : t = "" ∨ t ∈ META_TYPES
      · simp [classifyRecord, metadataOnly, h]
      · rw [classifyRecord_substantive t contentTypes gb cw h]
        simp [metadataOnly, h]

lemma firstDecision_append_skipped (xs ys : List JsonLine)
    (h : ∀ m ∈ xs, metadataOnly m = true) :
    firstDecision (xs ++ ys) = firstDecision ys := by
  induction xs with
  | nil => rfl
  | cons l rest ih =>
    have hl : classifyRecord l = none :=
      (classifyRecord_eq_none_iff l).mpr (h l (List.mem_cons_self l rest))
    simp only [List.cons_append, firstDecision, hl]
    exact ih fun m hm => h m (List.mem_cons_of_mem l hm)

lemma classifyRecord_ne_inactive (l : JsonLine) :
    classifyRecord l ≠ some .inactive := by
  cases l with
  | malformed => simp [classifyRecord]
  | record type contentTypes gb cw =>
    cases type with
    | none => simp [classifyRecord]
    | some t =>
      by_cases h : t = "" ∨ t ∈ META_TYPES
      · simp [classifyRecord, h]
      · rw [classifyRecord_substantive t contentTypes gb cw h]
        simp only [ne_eq, Option.some.injEq]
        exact specBaseStatus_ne_inactive t contentTypes

lemma firstDecision_ne_inactive (lines : List JsonLine) :
    firstDecision lines ≠ .inactive := by
  induction lines with
  | nil => simp [firstDecision]
  | cons l rest ih =>
    simp only [firstDecision]
    cases hc : classifyRecord l with
    | none => exact ih
    | some s =>
      intro hs
      exact classifyRecord_ne_inactive l (hs ▸ hc)

lemma resolveActiveStatus_ne_inactive (lines : List JsonLine) :
    resolveActiveStatus lines ≠ .inactive :=
  firstDecision_ne_inactive lines.reverse

/-! ## Claims -/

/-- **C1.** For every log of a session whose id is in the
ActiveProcessSet, the base status is computed by scanning the parsed
records from the most recent backward, skipping metadata lines; the
first substantive record decides per the spec's decision table (user,
progress or queued-operation records give `running`; assistant records
give `waiting` with a tool-invocation item, `idle` with a text item and
no tool invocation, `running` otherwise; any other type gives
`running`), and a log with no substantive record — including an empty
log — gives `running`. -/
theorem resolveActiveStatus_decision_table :
    (∀ (pre post : List JsonLine) (t : String)
        (contentTypes : Option (List String)) (gb cw : Option String),
      (∀ m ∈ post, metadataOnly m = true) →
      ¬ (t = "" ∨ t ∈ META_TYPES) →
      resolveActiveStatus
          (pre ++ JsonLine.record (some t) contentTypes gb cw :: post) =
        specBaseStatus t contentTypes) ∧
    (∀ lines : List JsonLine,
      (∀ m ∈ lines, metadataOnly m = true) →
      resolveActiveStatus lines = .running) := by
  constructor
  · intro pre post t contentTypes gb cw hpost ht
    unfold resolveActiveStatus
    rw [List.reverse_append, List.reverse_cons, List.append_assoc]
    rw [firstDecision_append_skipped post.reverse _
      (fun m hm => hpost m (List.mem_reverse.mp hm))]
    simp only [List.singleton_append, firstDecision,
      classifyRecord_substantive t contentTypes gb cw ht]
  · intro lines h
    unfold resolveActiveStatus
    have := firstDecision_append_skipped lines.reverse []
      (fun m hm => h m (List.mem_reverse.mp hm))
    simpa using this

/-- Witness for C1: a log ending in a system record preceded by an
assistant record with only a text item resolves to `idle`, and a log of
only metadata records resolves to `running`. -/
theorem resolveActiveStatus_decision_table_witness :
    resolveActiveStatus
        [JsonLine.record (some "assistant") (some ["text"]) none none,
         JsonLine.record (some "system") none none none] =
      SessionStatus.idle ∧
    resolveActiveStatus [JsonLine.record (some "system") none none none] =
      SessionStatus.running := by
  constructor
  · have h := resolveActiveStatus_decision_table.1 []
      [JsonLine.record (some "system") none none none] "assistant"
      (some ["text"]) none none (by decide) (by decide)
    simpa using h
  · exact resolveActiveStatus_decision_table.2 _ (by decide)

/-- **C2.** `determineStatus` returns `inactive` exactly when the id is
not in the ActiveProcessSet (independent of the log, the timestamps and
the subagents); when the id is in the set the base classification is
returned, upgraded to `running` when the base is `idle` and the file
was modified within the last 3 seconds, and upgraded to `running` when
the base is `waiting` and either the file was modified within the last
3 seconds or a subagent log was modified within the last 60 seconds. -/
theorem determineStatus_spec :
    ∀ (sessionId : String) (activeIds : List String)
      (lines : List JsonLine) (mtimeMs now : Int) (subs : List Int),
      (determineStatus sessionId activeIds lines mtimeMs now subs =
          .inactive ↔ sessionId ∉ activeIds) ∧
      (sessionId ∈ activeIds →
        ((resolveActiveStatus lines = .idle ∧
            now - mtimeMs < RECENT_THRESHOLD →
          determineStatus sessionId activeIds lines mtimeMs now subs =
            .running) ∧
         (resolveActiveStatus lines = .waiting ∧
            (now - mtimeMs < RECENT_THRESHOLD ∨
              hasActiveSubagent now subs = true) →
          determineStatus sessionId activeIds lines mtimeMs now subs =
            .running) ∧
         (¬ (resolveActiveStatus lines = .idle ∧
              now - mtimeMs < RECENT_THRESHOLD) →
          ¬ (resolveActiveStatus lines = .waiting ∧
              (now - mtimeMs < RECENT_THRESHOLD ∨
                hasActiveSubagent now subs = true)) →
          determineStatus sessionId activeIds lines mtimeMs now subs =
            resolveActiveStatus lines))) := by
  intro sessionId activeIds lines mtimeMs now subs
  constructor
  · constructor
    · intro h hmem
      unfold determineStatus at h
      rw [if_neg (by simpa using hmem)] at h
      have hne := resolveActiveStatus_ne_inactive lines
      by_cases hidle : resolveActiveStatus lines = .idle ∧
          now - mtimeMs < RECENT_THRESHOLD
      · simp [hidle] at h
      · rw [if_neg hidle] at h
        by_cases hwait : resolveActiveStatus lines = .waiting
        · rw [if_pos hwait] at h
          by_cases hr : now - mtimeMs < RECENT_THRESHOLD
          · simp [hr] at h
          · rw [if_neg hr] at h
            by_cases hs : hasActiveSubagent now subs = true
            · simp [hs] at h
            · rw [if_neg hs] at h
              exact hne h
        · rw [if_neg hwait] at h
          exact hne h
    · intro hmem
      unfold determineStatus
      rw [if_pos hmem]
  · intro hmem
    have hmem' : ¬ sessionId ∉ activeIds := by simpa using hmem
    refine ⟨?_, ?_, ?_⟩
    · intro ⟨hidle, hr⟩
      unfold determineStatus
      rw [if_neg hmem', if_pos ⟨hidle, hr⟩]
    · intro ⟨hwait, hor⟩
      unfold determineStatus
      have hnidle : ¬ (resolveActiveStatus lines = .idle ∧
          now - mtimeMs < RECENT_THRESHOLD) := by
        simp [hwait]
      rw [if_neg hmem', if_neg hnidle, if_pos hwait]
      rcases hor with hr | hs
      · rw [if_pos hr]
      · by_cases hr : now - mtimeMs < RECENT_THRESHOLD
        · rw [if_pos hr]
        · rw [if_neg hr, if_pos hs]
    · intro hnidle hnwait
      unfold determineStatus
      rw [if_neg hmem', if_neg hnidle]
      by_cases hwait : resolveActiveStatus lines = .waiting
      · rw [if_pos hwait]
        have hnr : ¬ now - mtimeMs < RECENT_THRESHOLD := fun hr =>
          hnwait ⟨hwait, Or.inl hr⟩
        have hns : ¬ hasActiveSubagent now subs = true := fun hs =>
          hnwait ⟨hwait, Or.inr hs⟩
        rw [if_neg hnr, if_neg hns, hwait]
      · rw [if_neg hwait]

/-- Witness for C2: the spec's concrete scenarios — an active session
whose last record is an assistant tool invocation is `waiting` when
modified 10 s ago, `running` when modified 1 s ago, and `inactive` when
the id is absent from the ActiveProcessSet. -/
theorem determineStatus_spec_witness :
    determineStatus "abc123" ["abc123"]
        [JsonLine.record (some "assistant") (some ["tool_use"]) none none]
        0 10000 [] = SessionStatus.waiting ∧
    determineStatus "abc123" ["abc123"]
        [JsonLine.record (some "assistant") (some ["tool_use"]) none none]
        9000 10000 [] = SessionStatus.running ∧
    determineStatus "abc123" []
        [JsonLine.record (some "assistant") (some ["tool_use"]) none none]
        0 10000 [] = SessionStatus.inactive := by
  refine ⟨?_, ?_, ?_⟩
  · have h := ((determineStatus_spec "abc123" ["abc123"]
      [JsonLine.record (some "assistant") (some ["tool_use"]) none none]
      0 10000 []).2 (by decide)).2.2 (by decide) (by decide)
    rw [h]; decide
  · exact ((determineStatus_spec "abc123" ["abc123"]
      [JsonLine.record (some "assistant") (some ["tool_use"]) none none]
      9000 10000 []).2 (by decide)).2.1 (by decide)
  · exact (determineStatus_spec "abc123" []
      [JsonLine.record (some "assistant") (some ["tool_use"]) none none]
      0 10000 []).1.mpr (by decide)

/-! ## Sorting -/

lemma rowLE_trans (a b c : SessionRow) :
    rowLE a b = true → rowLE b c = true → rowLE a c = true := by
  simp only [rowLE, decide_eq_true_eq]
  intro h1 h2
  rcases h1 with h1 | ⟨h1, h1'⟩ <;> rcases h2 with h2 | ⟨h2, h2'⟩
  · exact Or.inl (h1.trans h2)
  · exact Or.inl (h2 ▸ h1)
  · exact Or.inl (h1 ▸ h2)
  · exact Or.inr ⟨h1.trans h2, h2'.trans h1'⟩

lemma rowLE_total (a b : SessionRow) :
    (rowLE a b || rowLE b a) = true := by
  simp only [rowLE, Bool.or_eq_true, decide_eq_true_eq]
  omega

/-- The ordering property the spec states for adjacent result rows. -/
def rowOrdered (a b : SessionRow) : Prop :=
  STATUS_PRIORITY a.status ≤ STATUS_PRIORITY b.status ∧
    (STATUS_PRIORITY a.status = STATUS_PRIORITY b.status →
      b.lastActive ≤ a.lastActive)

lemma sortRows_chain (rows : List SessionRow) :
    List.Chain' rowOrdered (sortRows rows) := by
  have hp := List.sorted_mergeSort rowLE_trans rowLE_total rows
  refine List.Pairwise.chain' (hp.imp ?_)
  intro a b h
  simp only [rowLE, decide_eq_true_eq] at h
  rcases h with h | ⟨h, h'⟩
  · exact ⟨Nat.le_of_lt h, fun he => absurd he (Nat.ne_of_lt h)⟩
  · exact ⟨Nat.le_of_eq h, fun _ => h'⟩

lemma fullScan_snd (fs : FS) (activeIds : List String) (now : Int) :
    (fullScan fs activeIds now).2 =
      sortRows ((fullScan fs activeIds now).1.map (·.row)) := by
  cases h : fs.rootDirs <;> simp [fullScan, h, sortRows, List.mergeSort]

/-- **C4.** Every result list returned by a refresh (the row list of a
full scan or of a quick scan) is sorted: adjacent rows have
non-decreasing status priority (running=0, waiting=1, idle=2,
inactive=3), with `lastActive` non-increasing on equal priorities. -/
theorem refresh_rows_sorted :
    ∀ (fs : FS) (activeIds : List String) (now : Int)
      (cache : List CachedSession),
      List.Chain' rowOrdered (fullScan fs activeIds now).2 ∧
      List.Chain' rowOrdered (quickScan fs activeIds now cache).2 := by
  intro fs activeIds now cache
  constructor
  · rw [fullScan_snd]
    exact sortRows_chain _
  · exact sortRows_chain _

/-! ## Full-scan membership -/

lemma scanFile_some_cases {fs : FS} {activeIds : List String} {now : Int}
    {dir : String} {idx : Option IndexData} {file : String}
    {c : CachedSession}
    (h : scanFile fs activeIds now dir idx file = some c) :
    ∃ mtimeMs, fs.statOf (filePathOf dir file) = some mtimeMs ∧
      c.sessionId = replaceFirstS file ".jsonl" "" ∧
      c.row.sessionId = replaceFirstS file ".jsonl" "" ∧
      c.row.lastActive = mtimeMs ∧
      (c.row.sessionId ∈ activeIds ∨ now - mtimeMs ≤ STALE_THRESHOLD) := by
  cases hstat : fs.statOf (filePathOf dir file) with
  | none =>
    simp only [scanFile, hstat] at h
    exact Option.noConfusion h
  | some m =>
    simp only [scanFile, hstat] at h
    split at h
    · exact absurd h (by simp)
    · rename_i hguard
      obtain rfl : _ = c := Option.some_injective _ h
      refine ⟨m, rfl, rfl, rfl, rfl, ?_⟩
      by_cases hact : replaceFirstS file ".jsonl" "" ∈ activeIds
      · exact Or.inl hact
      · refine Or.inr ?_
        by_contra hstale
        exact hguard ⟨hact, by omega⟩

lemma scanFile_active_some {fs : FS} {activeIds : List String} (now : Int)
    (dir : String) (idx : Option IndexData) (file : String)
    (hactive : replaceFirstS file ".jsonl" "" ∈ activeIds)
    {m : Int} (hstat : fs.statOf (filePathOf dir file) = some m) :
    ∃ c, scanFile fs activeIds now dir idx file = some c ∧
      c.row.sessionId = replaceFirstS file ".jsonl" "" ∧
      c.row.lastActive = m := by
  refine ⟨buildSession fs activeIds now dir idx file m, ?_, rfl, rfl⟩
  simp only [scanFile, hstat]
  rw [if_neg (by simp [hactive])]

lemma mem_fullScan_fst {fs : FS} {activeIds : List String} {now : Int}
    {dirs : List String} {dir : String} {files : List String}
    {file : String} {c : CachedSession}
    (hroot : fs.rootDirs = some dirs) (hdir : dir ∈ dirs)
    (hfiles : fs.dirFiles dir = some files) (hfile : file ∈ files)
    (hjsonl : endsWithS file ".jsonl" = true)
    (hscan : scanFile fs activeIds now dir (fs.indexOf dir) file = some c) :
    c ∈ (fullScan fs activeIds now).1 := by
  simp only [fullScan, hroot]
  refine List.mem_flatMap.mpr ⟨dir, hdir, ?_⟩
  simp only [scanDir, hfiles]
  exact List.mem_filterMap.mpr
    ⟨file, List.mem_filter.mpr ⟨hfile, hjsonl⟩, hscan⟩

lemma fullScan_fst_inv {fs : FS} {activeIds : List String} {now : Int}
    {c : CachedSession} (h : c ∈ (fullScan fs activeIds now).1) :
    ∃ dir file,
      scanFile fs activeIds now dir (fs.indexOf dir) file = some c := by
  cases hroot : fs.rootDirs with
  | none => simp [fullScan, hroot] at h
  | some dirs =>
    simp only [fullScan, hroot] at h
    obtain ⟨dir, _, hin⟩ := List.mem_flatMap.mp h
    unfold scanDir at hin
    cases hfiles : fs.dirFiles dir with
    | none => rw [hfiles] at hin; simp at hin
    | some files =>
      rw [hfiles] at hin
      obtain ⟨file, _, hscan⟩ := List.mem_filterMap.mp hin
      exact ⟨dir, file, hscan⟩

lemma row_mem_fullScan_snd {fs : FS} {activeIds : List String} {now : Int}
    {c : CachedSession} (h : c ∈ (fullScan fs activeIds now).1) :
    c.row ∈ (fullScan fs activeIds now).2 := by
  rw [fullScan_snd]
  exact List.mem_mergeSort.mpr (List.mem_map_of_mem _ h)

lemma fullScan_snd_inv {fs : FS} {activeIds : List String} {now : Int}
    {row : SessionRow} (h : row ∈ (fullScan fs activeIds now).2) :
    ∃ c ∈ (fullScan fs activeIds now).1, c.row = row := by
  rw [fullScan_snd] at h
  exact List.mem_map.mp (List.mem_mergeSort.mp h)

/-- **C3.** A session whose id is not in the ActiveProcessSet and whose
log modification time is more than 24 h in the past never appears in a
full scan's result; a session whose id is in the set is never dropped
by the staleness rule, however old its log is. -/
theorem fullScan_staleness :
    ∀ (fs : FS) (activeIds : List String) (now : Int),
      (∀ row ∈ (fullScan fs activeIds now).2,
        row.sessionId ∈ activeIds ∨ now - row.lastActive ≤ STALE_THRESHOLD) ∧
      (∀ (dirs : List String) (dir : String) (files : List String)
          (file : String) (m : Int),
        fs.rootDirs = some dirs → dir ∈ dirs →
        fs.dirFiles dir = some files → file ∈ files →
        endsWithS file ".jsonl" = true →
        fs.statOf (filePathOf dir file) = some m →
        replaceFirstS file ".jsonl" "" ∈ activeIds →
        ∃ row ∈ (fullScan fs activeIds now).2,
          row.sessionId = replaceFirstS file ".jsonl" "" ∧
          row.lastActive = m) := by
  intro fs activeIds now
  constructor
  · intro row hrow
    obtain ⟨c, hc, rfl⟩ := fullScan_snd_inv hrow
    obtain ⟨dir, file, hscan⟩ := fullScan_fst_inv hc
    obtain ⟨m, _, _, _, hlast, hcase⟩ := scanFile_some_cases hscan
    rw [hlast]
    exact hcase
  · intro dirs dir files file m hroot hdir hfiles hfile hjsonl hstat hactive
    obtain ⟨c, hscan, hsid, hlast⟩ :=
      scanFile_active_some now dir (fs.indexOf dir) file hactive hstat
    exact ⟨c.row,
      row_mem_fullScan_snd
        (mem_fullScan_fst hroot hdir hfiles hfile hjsonl hscan),
      hsid, hlast⟩

/-- A small concrete filesystem used to instantiate theorems with
hypotheses: one project directory `-p` holding one log `s.jsonl`,
no index, modification time 100, empty log contents. -/
def fsEx : FS where
  rootDirs := some ["-p"]
  indexOf := fun _ => none
  dirFiles := fun _ => some ["s.jsonl"]
  statOf := fun _ => some 100
  logOf := fun _ => []
  subagentsOf := fun _ => []
  projectNameOf := fun _ => "p"
  gitBranchOf := fun _ => none

/-- Witness for C3: with session `s` active, a log last modified more
than 24 h before the scan instant still yields a row. -/
theorem fullScan_staleness_witness :
    ∃ row ∈ (fullScan fsEx ["s"] (STALE_THRESHOLD + 200)).2,
      row.sessionId = replaceFirstS "s.jsonl" ".jsonl" "" ∧
      row.lastActive = 100 :=
  (fullScan_staleness fsEx ["s"] (STALE_THRESHOLD + 200)).2
    ["-p"] "-p" ["s.jsonl"] "s.jsonl" 100 rfl (by decide) rfl (by decide)
    (by decide) rfl (by decide)

lemma scanFile_eligible {fs : FS} (activeIds : List String) (now : Int)
    (dir : String) (idx : Option IndexData) (file : String)
    {m : Int} (hstat : fs.statOf (filePathOf dir file) = some m)
    (helig : replaceFirstS file ".jsonl" "" ∈ activeIds ∨
      now - m ≤ STALE_THRESHOLD) :
    scanFile fs activeIds now dir idx file =
      some (buildSession fs activeIds now dir idx file m) := by
  simp only [scanFile, hstat]
  rw [if_neg]
  rcases helig with hmem | hfresh
  · exact fun hg => hg.1 hmem
  · exact fun hg => absurd hg.2 (by omega)

lemma buildSession_no_index (fs : FS) (activeIds : List String)
    (now : Int) (dir file : String) (mtimeMs : Int) :
    (buildSession fs activeIds now dir none file mtimeMs).row.projectPath =
      ((parseJsonlMetadata (fs.logOf (filePathOf dir file))).cwd).getD
        (deriveProjectPath dir) ∧
    (buildSession fs activeIds now dir none file mtimeMs).row.messageCount =
      (parseJsonlMetadata (fs.logOf (filePathOf dir file))).messageCount := by
  constructor
  · cases hcwd : (parseJsonlMetadata (fs.logOf (filePathOf dir file))).cwd <;>
      simp [buildSession, hcwd]
  · rfl

/-- **C8.** A full scan never raises: a missing or unreadable root
directory yields the empty result, and a missing or unparseable index
for a project directory is non-fatal — its logs are still scanned, with
log-derived values (the metadata `cwd`, falling back to the decoded
directory name, and the counted user/assistant records) in place of
index entries.  (The embedding of `fullScan` is a total function: every
per-unit I/O failure is an `Option` the scan consumes; nothing
propagates.) -/
theorem fullScan_error_handling :
    ∀ (fs : FS) (activeIds : List String) (now : Int),
      (fs.rootDirs = none → fullScan fs activeIds now = ([], [])) ∧
      (∀ (dirs : List String) (dir : String) (files : List String)
          (file : String) (m : Int),
        fs.rootDirs = some dirs → dir ∈ dirs →
        fs.indexOf dir = none →
        fs.dirFiles dir = some files → file ∈ files →
        endsWithS file ".jsonl" = true →
        fs.statOf (filePathOf dir file) = some m →
        (replaceFirstS file ".jsonl" "" ∈ activeIds ∨
          now - m ≤ STALE_THRESHOLD) →
        ∃ row ∈ (fullScan fs activeIds now).2,
          row.sessionId = replaceFirstS file ".jsonl" "" ∧
          row.projectPath =
            ((parseJsonlMetadata (fs.logOf (filePathOf dir file))).cwd).getD
              (deriveProjectPath dir) ∧
          row.messageCount =
            (parseJsonlMetadata
              (fs.logOf (filePathOf dir file))).messageCount) := by
  intro fs activeIds now
  constructor
  · intro hroot
    simp [fullScan, hroot]
  · intro dirs dir files file m hroot hdir hidx hfiles hfile hjsonl hstat
      helig
    have hscan := scanFile_eligible activeIds now dir (fs.indexOf dir) file
      hstat helig
    have hmem := row_mem_fullScan_snd
      (mem_fullScan_fst hroot hdir hfiles hfile hjsonl hscan)
    rw [hidx] at hmem
    obtain ⟨hpath, hcount⟩ :=
      buildSession_no_index fs activeIds now dir file m
    exact ⟨_, hmem, rfl, hpath, hcount⟩

/-- Witness for C8: a directory without an index still produces a row
whose values come from the log (no `cwd` record, so the decoded
directory name, and zero counted records). -/
theorem fullScan_error_handling_witness :
    ∃ row ∈ (fullScan fsEx ["s"] 0).2,
      row.sessionId = replaceFirstS "s.jsonl" ".jsonl" "" ∧
      row.projectPath =
        ((parseJsonlMetadata (fsEx.logOf (filePathOf "-p" "s.jsonl"))).cwd).getD
          (deriveProjectPath "-p") ∧
      row.messageCount =
        (parseJsonlMetadata
          (fsEx.logOf (filePathOf "-p" "s.jsonl"))).messageCount :=
  (fullScan_error_handling fsEx ["s"] 0).2
    ["-p"] "-p" ["s.jsonl"] "s.jsonl" 100 rfl (by decide) rfl rfl (by decide)
    (by decide) rfl (by decide)

/-! ## Quick scan -/

lemma quickUpdate_unchanged {fs : FS} {activeIds : List String}
    {now : Int} {c : CachedSession}
    (h : fs.statOf c.filePath = some c.mtimeMs) :
    quickUpdate fs activeIds now c = c := by
  simp [quickUpdate, h]

lemma quickUpdate_statfail {fs : FS} {activeIds : List String}
    {now : Int} {c : CachedSession} (h : fs.statOf c.filePath = none) :
    quickUpdate fs activeIds now c = c := by
  simp [quickUpdate, h]

/-- **C6.** If no cached file's modification time changed since the
full scan that produced the cache, a quick scan — whatever the current
filesystem contents, captured set and instant are — returns a list
equal value-by-value, in the same order, to the previously returned
result. -/
theorem quickScan_equiv :
    ∀ (fsFull : FS) (activeIds : List String) (now : Int)
      (fsQuick : FS) (activeIds2 : List String) (now2 : Int)
      (cache : List CachedSession) (rows : List SessionRow),
      fullScan fsFull activeIds now = (cache, rows) →
      (∀ c ∈ cache, fsQuick.statOf c.filePath = some c.mtimeMs) →
      (quickScan fsQuick activeIds2 now2 cache).2 = rows := by
  intro fsFull activeIds now fsQuick activeIds2 now2 cache rows hfull hstat
  have hmap : cache.map (quickUpdate fsQuick activeIds2 now2) = cache := by
    rw [List.map_congr_left fun c hc => quickUpdate_unchanged (hstat c hc)]
    exact List.map_id cache
  have hrows : rows = sortRows (cache.map (·.row)) := by
    have h := fullScan_snd fsFull activeIds now
    rw [hfull] at h
    exact h
  simp only [quickScan, hmap, hrows]

/-- Witness for C6: re-running a quick scan over the full scan's cache
with unchanged stats reproduces the full scan's rows. -/
theorem quickScan_equiv_witness :
    (quickScan fsEx ["s"] 50 (fullScan fsEx ["s"] 0).1).2 =
      (fullScan fsEx ["s"] 0).2 :=
  quickScan_equiv fsEx ["s"] 0 fsEx ["s"] 50 (fullScan fsEx ["s"] 0).1
    (fullScan fsEx ["s"] 0).2 rfl (by decide)

/-- **C7.** A quick scan recomputes, for every cached entry whose
modification time changed, only that entry's status and last-activity,
using the captured ActiveProcessSet it is given; session id, file path,
project path, project name, branch and message count are unchanged, and
entries whose modification time did not change are returned with all
fields unmodified. -/
theorem quickScan_frame :
    ∀ (fs : FS) (activeIds : List String) (now : Int)
      (cache : List CachedSession),
      (quickScan fs activeIds now cache).1 =
        cache.map (quickUpdate fs activeIds now) ∧
      ∀ c ∈ cache,
        ((quickUpdate fs activeIds now c).sessionId = c.sessionId ∧
         (quickUpdate fs activeIds now c).filePath = c.filePath ∧
         (quickUpdate fs activeIds now c).row.sessionId = c.row.sessionId ∧
         (quickUpdate fs activeIds now c).row.projectPath =
           c.row.projectPath ∧
         (quickUpdate fs activeIds now c).row.projectName =
           c.row.projectName ∧
         (quickUpdate fs activeIds now c).row.gitBranch = c.row.gitBranch ∧
         (quickUpdate fs activeIds now c).row.messageCount =
           c.row.messageCount) ∧
        (fs.statOf c.filePath = some c.mtimeMs →
          quickUpdate fs activeIds now c = c) ∧
        (∀ m, fs.statOf c.filePath = some m → m ≠ c.mtimeMs →
          (quickUpdate fs activeIds now c).row.status =
            determineStatus c.sessionId activeIds (fs.logOf c.filePath)
              m now (fs.subagentsOf c.filePath) ∧
          (quickUpdate fs activeIds now c).row.lastActive = m ∧
          (quickUpdate fs activeIds now c).mtimeMs = m) := by
  intro fs activeIds now cache
  refine ⟨rfl, fun c _ => ⟨?_, ?_, ?_⟩⟩
  · unfold quickUpdate
    cases h : fs.statOf c.filePath with
    | none => simp
    | some m =>
      by_cases hm : m ≠ c.mtimeMs
      · simp [hm]
      · simp [hm]
  · intro h
    exact quickUpdate_unchanged h
  · intro m h hm
    simp [quickUpdate, h, hm]

/-- A cached entry used to instantiate the quick-scan theorems: its
recorded modification time 50 differs from the stat result 100 of
`fsEx`. -/
def cacheEntryEx : CachedSession where
  filePath := "-p/s.jsonl"
  sessionId := "s"
  mtimeMs := 50
  row := { sessionId := "s"
           projectPath := "/p"
           projectName := "p"
           gitBranch := "main"
           status := .idle
           lastActive := 50
           messageCount := 1 }

/-- Witness for C7: on a changed modification time, the project name is
kept and `lastActive` moves to the new stat time. -/
theorem quickScan_frame_witness :
    (quickUpdate fsEx ["s"] 0 cacheEntryEx).row.projectName = "p" ∧
    (quickUpdate fsEx ["s"] 0 cacheEntryEx).row.lastActive = 100 := by
  have h := (quickScan_frame fsEx ["s"] 0 [cacheEntryEx]).2 cacheEntryEx
    (by decide)
  exact ⟨h.1.2.2.2.2.1, (h.2.2 100 rfl (by decide)).2.1⟩

/-- **C10.** A quick scan never adds or removes rows: the updated cache
has the same session ids in the same order, the row list has exactly
one row per cached entry with the same multiset of session ids, and an
entry whose file can no longer be stat'ed keeps its previously computed
fields unchanged.  (The scan consults nothing outside the cache, so a
log created after the last full scan cannot appear.) -/
theorem quickScan_no_add_remove :
    ∀ (fs : FS) (activeIds : List String) (now : Int)
      (cache : List CachedSession),
      ((quickScan fs activeIds now cache).1.map (·.sessionId) =
        cache.map (·.sessionId)) ∧
      ((quickScan fs activeIds now cache).2.length = cache.length) ∧
      (((quickScan fs activeIds now cache).2.map (·.sessionId)).Perm
        (cache.map (·.row.sessionId))) ∧
      (∀ c ∈ cache, fs.statOf c.filePath = none →
        quickUpdate fs activeIds now c = c) := by
  intro fs activeIds now cache
  have hid : ∀ c, (quickUpdate fs activeIds now c).sessionId =
      c.sessionId := by
    intro c
    unfold quickUpdate
    cases h : fs.statOf c.filePath with
    | none => rfl
    | some m =>
      by_cases hm : m ≠ c.mtimeMs
      · simp [hm]
      · simp [hm]
  refine ⟨?_, ?_, ?_, fun c _ h => quickUpdate_statfail h⟩
  · simp only [quickScan, List.map_map]
    exact List.map_congr_left fun c _ => hid c
  · simp only [quickScan, sortRows, List.length_mergeSort, List.length_map]
  · have hperm : ((quickScan fs activeIds now cache).2).Perm
        ((cache.map (quickUpdate fs activeIds now)).map (·.row)) :=
      List.mergeSort_perm _ _
    have hm := hperm.map (·.sessionId)
    simp only [List.map_map] at hm
    have hidrow : ∀ c, ((quickUpdate fs activeIds now c).row).sessionId =
        c.row.sessionId := by
      intro c
      unfold quickUpdate
      cases h : fs.statOf c.filePath with
      | none => rfl
      | some m =>
        by_cases hm : m ≠ c.mtimeMs
        · simp [hm]
        · simp [hm]
    have h2 : (cache.map fun c =>
        ((quickUpdate fs activeIds now c).row).sessionId) =
        cache.map (·.row.sessionId) :=
      List.map_congr_left fun c _ => hidrow c
    exact h2 ▸ hm

/-- Witness for C10: an entry whose file cannot be stat'ed any more is
returned unchanged. -/
theorem quickScan_no_add_remove_witness :
    quickUpdate { fsEx with statOf := fun _ => none } ["s"] 0
        cacheEntryEx = cacheEntryEx :=
  (quickScan_no_add_remove { fsEx with statOf := fun _ => none } ["s"] 0
    [cacheEntryEx]).2.2.2 cacheEntryEx (by decide) rfl

/-! ## Process correlation -/

/-- A directory entry that qualifies for correlation: a `.jsonl` log
whose creation time lies in the window
`[processStartMs - 5000, processStartMs + 300000]`. -/
def isCandidate (processStartMs : Int) (p : String × Int) : Prop :=
  endsWithS p.1 ".jsonl" = true ∧ -5000 ≤ p.2 - processStartMs ∧
    p.2 - processStartMs ≤ 300000

instance (processStartMs : Int) (p : String × Int) :
    Decidable (isCandidate processStartMs p) := by
  unfold isCandidate
  infer_instance

/-- The selection rule as the spec words it, for comparison with the
implementation: among the window candidates, minimize the ABSOLUTE
difference between creation time and process start time. -/
def matchGoSpec (processStartMs : Int) :
    List (String × Int) → Option String → Option Int → Option String
  | [], bestId, _ => bestId
  | (f, birth) :: rest, bestId, bestAbs =>
    if ¬ endsWithS f ".jsonl" then matchGoSpec processStartMs rest bestId bestAbs
    else
      let diff := birth - processStartMs
      let adiff := if diff < 0 then -diff else diff
      if diff ≥ -5000 ∧ diff ≤ 300000 ∧ beatsBest adiff bestAbs then
        matchGoSpec processStartMs rest (some (replaceFirstS f ".jsonl" ""))
          (some adiff)
      else matchGoSpec processStartMs rest bestId bestAbs

/-- The spec-worded correlation: window filter, then minimal absolute
time difference. -/
def matchSessionByBirthTimeSpec
    (readdirF : String → Option (List (String × Int)))
    (cwd : String) (processStartMs : Int) : Option String :=
  match readdirF (encodeProjectDir cwd) with
  | none => none
  | some files => matchGoSpec processStartMs files none none

/-- **C5 counterexample.** With logs created 4 s before and 1 s after
the process start (both inside the window), the implementation selects
the earlier one (minimal signed difference, `-4000`), while the claim's
minimal-absolute-difference rule selects the later one (`1000`). -/
theorem matchSessionByBirthTime_counterexample :
    matchSessionByBirthTime
        (fun _ => some [("a.jsonl", -4000), ("b.jsonl", 1000)]) "/p" 0 =
      some "a" ∧
    matchSessionByBirthTimeSpec
        (fun _ => some [("a.jsonl", -4000), ("b.jsonl", 1000)]) "/p" 0 =
      some "b" := by
  constructor <;> rfl

lemma matchGo_min_aux (start : Int) :
    ∀ (files : List (String × Int)) (bId : Option String)
      (bD : Option Int) (id : String),
      (bId = none ↔ bD = none) →
      matchGo start files bId bD = some id →
      (∃ d, bD = some d ∧ bId = some id ∧
        ∀ q ∈ files, isCandidate start q → d ≤ q.2 - start) ∨
      (∃ p ∈ files, isCandidate start p ∧
        id = replaceFirstS p.1 ".jsonl" "" ∧
        (∀ q ∈ files, isCandidate start q → p.2 - start ≤ q.2 - start) ∧
        (∀ d, bD = some d → p.2 - start < d)) := by
  intro files
  induction files with
  | nil =>
    intro bId bD id hc h
    simp only [matchGo] at h
    subst h
    cases hbD : bD with
    | none => exact absurd (hc.mpr hbD) (by simp)
    | some d => exact Or.inl ⟨d, rfl, rfl, by simp⟩
  | cons hd rest ih =>
    obtain ⟨f, b⟩ := hd
    intro bId bD id hc h
    simp only [matchGo] at h
    by_cases hend : endsWithS f ".jsonl" = true
    · rw [if_neg (by simpa using hend)] at h
      set diff := b - start with hdiff
      by_cases hwin : diff ≥ -5000 ∧ diff ≤ 300000 ∧
          beatsBest diff bD = true
      · rw [if_pos hwin] at h
        rcases ih (some (replaceFirstS f ".jsonl" "")) (some diff) id
            (by simp) h with
          ⟨d, hd, hbid, hmin⟩ | ⟨p, hp, hcand, hid, hmin, hlt⟩
        · obtain rfl : diff = d := by simpa using hd
          refine Or.inr ⟨(f, b), List.mem_cons_self _ _,
            ⟨hend, hwin.1, hwin.2.1⟩, by simpa using hbid.symm, ?_, ?_⟩
          · intro q hq hcq
            rcases List.mem_cons.mp hq with rfl | hq'
            · exact le_refl _
            · exact hmin q hq' hcq
          · intro d0 hd0
            have := hwin.2.2
            rw [hd0] at this
            simpa [beatsBest] using this
        · refine Or.inr ⟨p, List.mem_cons_of_mem _ hp, hcand, hid, ?_, ?_⟩
          · intro q hq hcq
            rcases List.mem_cons.mp hq with rfl | hq'
            · exact le_of_lt (hlt diff rfl)
            · exact hmin q hq' hcq
          · intro d0 hd0
            have h1 : p.2 - start < diff := hlt diff rfl
            have h2 := hwin.2.2
            rw [hd0] at h2
            have h3 : diff < d0 := by simpa [beatsBest] using h2
            exact h1.trans h3
      · rw [if_neg hwin] at h
        rcases ih bId bD id hc h with
          ⟨d, hd, hbid, hmin⟩ | ⟨p, hp, hcand, hid, hmin, hlt⟩
        · refine Or.inl ⟨d, hd, hbid, ?_⟩
          intro q hq hcq
          rcases List.mem_cons.mp hq with rfl | hq'
          · have hw : -5000 ≤ diff ∧ diff ≤ 300000 := ⟨hcq.2.1, hcq.2.2⟩
            have hnb : ¬ beatsBest diff bD = true := fun hb =>
              hwin ⟨hw.1, hw.2, hb⟩
            rw [hd] at hnb
            have : ¬ diff < d := by simpa [beatsBest] using hnb
            omega
          · exact hmin q hq' hcq
        · refine Or.inr ⟨p, List.mem_cons_of_mem _ hp, hcand, hid, ?_, hlt⟩
          intro q hq hcq
          rcases List.mem_cons.mp hq with rfl | hq'
          · cases hbD : bD with
            | none =>
              have hw : -5000 ≤ diff ∧ diff ≤ 300000 := ⟨hcq.2.1, hcq.2.2⟩
              rw [hbD] at hwin
              exact absurd ⟨hw.1, hw.2, rfl⟩ hwin
            | some d0 =>
              have h1 : p.2 - start < d0 := hlt d0 hbD
              have hw : -5000 ≤ diff ∧ diff ≤ 300000 := ⟨hcq.2.1, hcq.2.2⟩
              have hnb : ¬ beatsBest diff bD = true := fun hb =>
                hwin ⟨hw.1, hw.2, hb⟩
              rw [hbD] at hnb
              have h2 : ¬ diff < d0 := by simpa [beatsBest] using hnb
              omega
          · exact hmin q hq' hcq
    · rw [if_pos (by simpa using hend)] at h
      rcases ih bId bD id hc h with
        ⟨d, hd, hbid, hmin⟩ | ⟨p, hp, hcand, hid, hmin, hlt⟩
      · refine Or.inl ⟨d, hd, hbid, ?_⟩
        intro q hq hcq
        rcases List.mem_cons.mp hq with rfl | hq'
        · exact absurd hcq.1 hend
        · exact hmin q hq' hcq
      · refine Or.inr ⟨p, List.mem_cons_of_mem _ hp, hcand, hid, ?_, hlt⟩
        intro q hq hcq
        rcases List.mem_cons.mp hq with rfl | hq'
        · exact absurd hcq.1 hend
        · exact hmin q hq' hcq

lemma matchGo_none_of_no_candidate (start : Int) :
    ∀ files : List (String × Int),
      (∀ p ∈ files, ¬ isCandidate start p) →
      matchGo start files none none = none := by
  intro files
  induction files with
  | nil => intro; rfl
  | cons hd rest ih =>
    obtain ⟨f, b⟩ := hd
    intro h
    simp only [matchGo]
    by_cases hend : endsWithS f ".jsonl" = true
    · rw [if_neg (by simpa using hend)]
      have hnc := h (f, b) (List.mem_cons_self _ _)
      have hwin : ¬ (b - start ≥ -5000 ∧ b - start ≤ 300000 ∧
          beatsBest (b - start) none = true) := by
        intro ⟨h1, h2, _⟩
        exact hnc ⟨hend, h1, h2⟩
      rw [if_neg hwin]
      exact ih fun p hp => h p (List.mem_cons_of_mem _ hp)
    · rw [if_pos (by simpa using hend)]
      exact ih fun p hp => h p (List.mem_cons_of_mem _ hp)

/-- **C5 (amended).** For a process without a resume flag, the
heuristic selects, among the logs of the project directory derived from
the working directory, one whose creation time lies in the window
`[start - 5s, start + 300s]` and which minimizes the SIGNED difference
creation − start (i.e. the earliest-created candidate) — not the
absolute difference; when no log's creation time falls in the window,
no session is correlated. -/
theorem matchSessionByBirthTime_amended :
    ∀ (readdirF : String → Option (List (String × Int))) (cwd : String)
      (start : Int) (files : List (String × Int)),
      readdirF (encodeProjectDir cwd) = some files →
      ((∀ p ∈ files, ¬ isCandidate start p) →
        matchSessionByBirthTime readdirF cwd start = none) ∧
      (∀ id, matchSessionByBirthTime readdirF cwd start = some id →
        ∃ p ∈ files, isCandidate start p ∧
          id = replaceFirstS p.1 ".jsonl" "" ∧
          ∀ q ∈ files, isCandidate start q →
            p.2 - start ≤ q.2 - start) := by
  intro readdirF cwd start files hrd
  constructor
  · intro hnc
    simp only [matchSessionByBirthTime, hrd]
    exact matchGo_none_of_no_candidate start files hnc
  · intro id h
    simp only [matchSessionByBirthTime, hrd] at h
    rcases matchGo_min_aux start files none none id (by simp) h with
      ⟨d, hd, _, _⟩ | ⟨p, hp, hcand, hid, hmin, _⟩
    · exact absurd hd (by simp)
    · exact ⟨p, hp, hcand, hid, hmin⟩

/-- Witness for C5 (amended): a directory with only a non-log entry
correlates nothing, and on the counterexample directory the selected
log `a.jsonl` is a window candidate minimizing the signed difference. -/
theorem matchSessionByBirthTime_amended_witness :
    matchSessionByBirthTime (fun _ => some [("x.txt", 0)]) "/p" 0 =
      none ∧
    ∃ p ∈ [("a.jsonl", (-4000 : Int)), ("b.jsonl", 1000)],
      isCandidate 0 p ∧ "a" = replaceFirstS p.1 ".jsonl" "" ∧
      ∀ q ∈ [("a.jsonl", (-4000 : Int)), ("b.jsonl", 1000)],
        isCandidate 0 q → p.2 - 0 ≤ q.2 - 0 := by
  constructor
  · exact (matchSessionByBirthTime_amended (fun _ => some [("x.txt", 0)])
      "/p" 0 [("x.txt", 0)] rfl).1 (by decide)
  · exact (matchSessionByBirthTime_amended
      (fun _ => some [("a.jsonl", -4000), ("b.jsonl", 1000)]) "/p" 0
      [("a.jsonl", -4000), ("b.jsonl", 1000)] rfl).2 "a" rfl

/-! ## Path encoding -/

/-- **C9 counterexample.** The encoding is not reversible for every
absolute path: a dash inside the path is decoded as a separator.  For
`/a-b` the encoded directory name `-a-b` decodes to `/a/b`. -/
theorem deriveProjectPath_counterexample :
    deriveProjectPath (encodeProjectDir "/a-b") = "/a/b" ∧
    deriveProjectPath (encodeProjectDir "/a-b") ≠ "/a-b" := by
  constructor <;> decide

lemma derive_encode_list (rest : List Char) (h : '-' ∉ rest) :
    deriveProjectPathL (encodeProjectDirL ('/' :: rest)) = '/' :: rest := by
  show deriveProjectPathL ('-' :: rest.map _) = _
  simp only [deriveProjectPathL, List.map_cons, List.map_map]
  rw [if_neg (by decide)]
  congr 1
  have : ∀ c ∈ rest,
      ((fun c => if c = '-' then '/' else c) ∘
        fun c => if c = '/' then '-' else c) c = id c := by
    intro c hc
    by_cases h1 : c = '/'
    · subst h1; simp
    · have h2 : c ≠ '-' := fun e => h (e ▸ hc)
      simp [h1, h2]
  rw [List.map_congr_left this, List.map_id]

/-- **C9 (amended).** The naming scheme is reversible for absolute
paths that contain no dash: for every such path, decoding
(`deriveProjectPath`) the encoded directory name recovers the original
path. -/
theorem deriveProjectPath_roundtrip :
    ∀ (p : String) (rest : List Char), p.data = '/' :: rest →
      '-' ∉ p.data → deriveProjectPath (encodeProjectDir p) = p := by
  intro p rest hdata hnd
  have hrest : '-' ∉ rest := fun hcmem =>
    hnd (hdata ▸ List.mem_cons_of_mem _ hcmem)
  cases p with
  | mk data =>
    simp only [String.data] at hdata
    subst hdata
    exact congrArg String.mk (derive_encode_list rest hrest)

/-- Witness for C9 (amended): a dash-free absolute path round-trips. -/
theorem deriveProjectPath_roundtrip_witness :
    deriveProjectPath (encodeProjectDir "/home/alice/app") =
      "/home/alice/app" :=
  deriveProjectPath_roundtrip "/home/alice/app" "home/alice/app".data rfl
    (by decide)

end Claudpit
